import Mathlib

/-!
Verification of the mini-git object store core.

A shallow embedding of the object codec, bounded reader, object store and
tree-entry ordering of the mini-git repository (`src/objects.rs` and
`src/commands/write_tree.rs`), together with theorems settling the frozen
claims about the natural-language specification.

Modelling conventions:
- Byte streams are `List Nat` (each element a byte value `< 256` in actual use;
  the algorithms never depend on the bound).
- Zlib compression/decompression is modelled as the identity on byte streams:
  the codec hashes and parses the *uncompressed* canonical bytes, and the
  zlib round-trip is a library guarantee external to this program.
- The SHA-1 digest is an abstract parameter `H : List Nat → List Nat`;
  theorems that need its 20-byte output length take that as a hypothesis.
- Fallible operations return `ReadResult`, whose `crash` constructor
  distinguishes a Rust panic (`expect` / out-of-bounds slice) from an error
  value returned to the caller (`err`, modelling `anyhow::Error`).
-/

set_option maxHeartbeats 1000000

namespace MiniGit

/-- Outcome of a fallible operation: success, an error value returned to the
caller (Rust `Err(..)`), or a crash of the process (Rust panic). -/
inductive ReadResult (α : Type) where
  | ok (val : α)
  | err (msg : String)
  | crash (msg : String)
deriving DecidableEq

/-- Byte-wise lexicographic comparison of byte lists, modelling Rust slice
`cmp` (`afn[..common_len].cmp(&bfn[..common_len])` in `write_tree.rs`). -/
def bytesCmp : List Nat → List Nat → Ordering
  | [], [] => .eq
  | [], _ :: _ => .lt
  | _ :: _, [] => .gt
  | x :: xs, y :: ys =>
    match compare x y with
    | .eq => bytesCmp xs ys
    | o => o

/-- Comparison of `Option<u8>` values, modelling Rust `Option` `Ord`
(`None` sorts before `Some`). -/
def optCmpByte : Option Nat → Option Nat → Ordering
  | none, none => .eq
  | none, some _ => .lt
  | some _, none => .gt
  | some x, some y => compare x y

/-- The tree-entry comparator of `write_tree_for` (`write_tree.rs` lines
29–57).  An entry is `(raw name bytes, is_dir flag)`.  Compares the shared
prefix byte-wise, returns `eq` for equal-length equal-prefix names, and
otherwise compares the next conceptually available byte of each name: the
next real byte if present, a synthetic `/` (47) if the name is exhausted and
the entry is a directory, and no byte at all otherwise. -/
def treeCmp (a b : List Nat × Bool) : Ordering :=
  let afn := a.1
  let bfn := b.1
  let common := min afn.length bfn.length
  match bytesCmp (afn.take common) (bfn.take common) with
  | .eq =>
    if afn.length = bfn.length then .eq
    else
      let c1 : Option Nat :=
        match afn[common]? with
        | some c => some c
        | none => if a.2 then some 47 else none
      let c2 : Option Nat :=
        match bfn[common]? with
        | some c => some c
        | none => if b.2 then some 47 else none
      optCmpByte c1 c2
  | o => o

/-- Modelled from the spec: the canonical tree-entry ordering as the spec
narrates it — walk the two names byte-by-byte over the shared prefix; if both
end together they are equal; if one name is a strict prefix of the other,
compare the next real byte of the longer name against a synthetic `/` byte when
the shorter entry is a directory, and make the shorter entry sort first when
it is not a directory. -/
def specGo : List Nat → Bool → List Nat → Bool → Ordering
  | [], _, [], _ => .eq
  | [], adir, y :: _, _ => if adir then compare 47 y else .lt
  | x :: _, _, [], bdir => if bdir then compare x 47 else .gt
  | x :: xs, adir, y :: ys, bdir =>
    match compare x y with
    | .eq => specGo xs adir ys bdir
    | o => o

/-- Modelled from the spec: entry point of the spec-worded comparator. -/
def specTreeCmp (a b : List Nat × Bool) : Ordering :=
  specGo a.1 a.2 b.1 b.2

/-- ASCII decimal digit test (bytes 48–57). -/
def isDigitByte (b : Nat) : Bool := 48 ≤ b && b ≤ 57

/-- Digit-accumulation loop for decimal formatting: prepend the low digit,
recurse on `n / 10`.  The fuel argument only forces termination; any
`fuel > n` gives the true digit string. -/
def natToDigitBytesAux : Nat → Nat → List Nat → List Nat
  | 0, _, acc => acc
  | fuel + 1, n, acc =>
    let acc2 := (n % 10 + 48) :: acc
    if n < 10 then acc2 else natToDigitBytesAux fuel (n / 10) acc2

/-- Decimal rendering of a natural number as ASCII bytes, as Rust
`write!("{}", n)` produces for `u64` (most significant digit first, `"0"`
for zero). -/
def natToDigitBytes (n : Nat) : List Nat :=
  natToDigitBytesAux (n + 1) n []

/-- Value of a most-significant-first ASCII digit string. -/
def digitsVal (l : List Nat) : Nat :=
  l.foldl (fun acc b => 10 * acc + (b - 48)) 0

/-- The exclusive upper bound `2 ^ 64` of Rust `u64`. -/
def u64Bound : Nat := 18446744073709551616

/-- Rust `str::parse::<u64>`: an optional leading `+` (byte 43) followed by a
non-empty run of ASCII digits whose value fits in `u64`. -/
def parseU64 (l : List Nat) : Option Nat :=
  let ds := if l.head? = some 43 then l.tail else l
  if ds ≠ [] ∧ ds.all isDigitByte then
    if digitsVal ds < u64Bound then some (digitsVal ds) else none
  else none

/-- Git object kind (`Kind` in `objects.rs`). -/
inductive Kind where
  | blob
  | tree
  | commit
deriving DecidableEq

/-- The `Display` rendering of a kind, as bytes (`"blob"`, `"tree"`,
`"commit"`). -/
def kindBytes : Kind → List Nat
  | .blob => [98, 108, 111, 98]
  | .tree => [116, 114, 101, 101]
  | .commit => [99, 111, 109, 109, 105, 116]

/-- The kind-token match of `Object::read`: exactly the three rendered
strings parse back; anything else is rejected. -/
def parseKind (l : List Nat) : Option Kind :=
  if l = kindBytes .blob then some .blob
  else if l = kindBytes .tree then some .tree
  else if l = kindBytes .commit then some .commit
  else none

/-- Canonical serialized form of an object:
`"<kind> <declared-size>\0" ++ payload` (the bytes that `Object::write`
streams through the hasher and the compressor). -/
def canonicalBytes (k : Kind) (size : Nat) (payload : List Nat) : List Nat :=
  kindBytes k ++ 32 :: natToDigitBytes size ++ 0 :: payload

/-- Concatenation of a list of byte lists. -/
def flat : List (List Nat) → List Nat
  | [] => []
  | x :: xs => x ++ flat xs

/-- Lowercase hex digit for a value `< 16`. -/
def hexDigitByte (n : Nat) : Nat := if n < 10 then 48 + n else 87 + n

/-- Lowercase hex encoding of a byte list (`hex::encode`). -/
def hexEncode (l : List Nat) : List Nat :=
  flat (l.map (fun b => [hexDigitByte (b / 16), hexDigitByte (b % 16)]))

/-- Model of the `read_until` call on byte 0: returns the bytes up to and including the
first NUL (or the whole stream if none), and the remaining stream. -/
def readUntilNul : List Nat → List Nat × List Nat
  | [] => ([], [])
  | b :: rest =>
    if b = 0 then ([0], rest)
    else
      let p := readUntilNul rest
      (b :: p.1, p.2)

/-- Model of `CStr::from_bytes_with_nul`: succeeds exactly when the buffer is
non-empty, ends in NUL, and has no interior NUL; returns the bytes without
the terminator. -/
def cstrFromBytesWithNul (buf : List Nat) : Option (List Nat) :=
  if buf.getLast? = some 0 ∧ buf.dropLast.contains 0 = false then
    some buf.dropLast
  else none

/-- A UTF-8 continuation byte (`0x80`–`0xBF`). -/
def contByte (b : Nat) : Bool := 128 ≤ b && b ≤ 191

/-- UTF-8 validity check, recursing on a fuel bound (any `fuel ≥ length`
gives the true answer; the fuel only shapes the recursion). -/
def utf8ValidAux : Nat → List Nat → Bool
  | _, [] => true
  | 0, _ :: _ => false
  | fuel + 1, b :: rest =>
    if b ≤ 127 then utf8ValidAux fuel rest
    else if 194 ≤ b && b ≤ 223 then
      match rest with
      | b2 :: r => contByte b2 && utf8ValidAux fuel r
      | [] => false
    else if b = 224 then
      match rest with
      | b2 :: b3 :: r =>
        (160 ≤ b2 && b2 ≤ 191) && (contByte b3 && utf8ValidAux fuel r)
      | _ => false
    else if (225 ≤ b && b ≤ 236) || (238 ≤ b && b ≤ 239) then
      match rest with
      | b2 :: b3 :: r => contByte b2 && (contByte b3 && utf8ValidAux fuel r)
      | _ => false
    else if b = 237 then
      match rest with
      | b2 :: b3 :: r =>
        (128 ≤ b2 && b2 ≤ 159) && (contByte b3 && utf8ValidAux fuel r)
      | _ => false
    else if b = 240 then
      match rest with
      | b2 :: b3 :: b4 :: r =>
        (144 ≤ b2 && b2 ≤ 191) && (contByte b3 && (contByte b4 && utf8ValidAux fuel r))
      | _ => false
    else if 241 ≤ b && b ≤ 243 then
      match rest with
      | b2 :: b3 :: b4 :: r =>
        contByte b2 && (contByte b3 && (contByte b4 && utf8ValidAux fuel r))
      | _ => false
    else if b = 244 then
      match rest with
      | b2 :: b3 :: b4 :: r =>
        (128 ≤ b2 && b2 ≤ 143) && (contByte b3 && (contByte b4 && utf8ValidAux fuel r))
      | _ => false
    else false

/-- UTF-8 validity of a byte sequence, as Rust `str` requires (RFC 3629
table: no overlong forms, no surrogates, max `U+10FFFF`). -/
def utf8Valid (l : List Nat) : Bool := utf8ValidAux l.length l

/-- Byte-level model of the `split_once` call on the space character: split
at the first occurrence of `sep`, or `none` when absent.  For valid UTF-8 and an ASCII separator the
byte-level and char-level splits coincide (continuation bytes are `≥ 0x80`). -/
def splitOnceByte (sep : Nat) : List Nat → Option (List Nat × List Nat)
  | [] => none
  | b :: rest =>
    if b = sep then some ([], rest)
    else
      match splitOnceByte sep rest with
      | some p => some (b :: p.1, p.2)
      | none => none

/-- One call to `LimitReader::read` (`objects.rs` lines 174–184) over a
deterministic underlying source that yields `min(buffer length, available)`
bytes.  `limit` is the remaining limit, `src` the bytes the underlying
reader still holds, `bufLen` the length of the buffer of the caller.  Returns
`(result, new limit, new underlying source)`.  On the error path the limit
is untouched but the underlying reader has already consumed the bytes.

Arbitrary short reads by the underlying reader are simulated by a smaller
`bufLen`: delivering `n < min(bufLen, available)` bytes has exactly the
effect of a call with `bufLen = n` (when `n ≤ limit`) and of a call with any
over-limit buffer (when `n > limit`). -/
def limitRead (limit : Nat) (src : List Nat) (bufLen : Nat) :
    Except String (List Nat) × Nat × List Nat :=
  let cap := if bufLen > limit then limit + 1 else bufLen
  let n := min cap src.length
  if n > limit then (Except.error "too many bytes", limit, src.drop n)
  else (Except.ok (src.take n), limit - n, src.drop n)

/-- Draining a `LimitReader` to the end (what `io::copy` /
`read_to_end` observe): the whole remaining source when it fits in the
limit, the overrun error otherwise. -/
def limitDrain (limit : Nat) (src : List Nat) : Except String (List Nat) :=
  if limit < src.length then Except.error "too many bytes" else Except.ok src

/-- A sequence of `LimitReader::read` calls with buffer lengths `ks`;
returns the total number of bytes delivered to the caller across the
successful calls. -/
def runReads : Nat → List Nat → List Nat → Nat
  | _, _, [] => 0
  | limit, src, k :: ks =>
    match limitRead limit src k with
    | (Except.ok bs, l2, s2) => bs.length + runReads l2 s2 ks
    | (Except.error _, l2, s2) => runReads l2 s2 ks

/-- The decode path of `Object::read` (`objects.rs` lines 64–99) applied to
a decompressed byte stream, followed by the caller draining the returned
`LimitReader` (as `cat-file` does with `io::copy`): read the header up to
the first NUL, `expect` a NUL-terminated C string (a panic when the stream
has no NUL), check UTF-8, split at the first space, match the kind token,
parse the decimal size, and read the payload through a `LimitReader` with
limit equal to the declared size. -/
def decodeObject (stream : List Nat) : ReadResult (Kind × Nat × List Nat) :=
  let p := readUntilNul stream
  match cstrFromBytesWithNul p.1 with
  | none => .crash "there is one nul at the end"
  | some headerBytes =>
    if utf8Valid headerBytes then
      match splitOnceByte 32 headerBytes with
      | none => .err "git object file header did not start with a known type"
      | some kv =>
        match parseKind kv.1 with
        | none => .err "unknown git object kind"
        | some kind =>
          match parseU64 kv.2 with
          | none => .err "git objects file header has invalid size"
          | some size =>
            match limitDrain size p.2 with
            | Except.error e => .err e
            | Except.ok payload => .ok (kind, size, payload)
    else .err "git objects file header is not valid UTF-8"

/-- Model of `Object::write` (`objects.rs` lines 107–118): emit the header with the
*declared* size, stream the payload after it, and return the digest of the
canonical bytes together with the bytes persisted to the sink (compression
modelled as the identity).  The byte count returned by `io::copy` is
discarded by the source, so the function has no failure branch besides
I/O, which the pure model cannot exhibit. -/
def objectWrite (H : List Nat → List Nat) (k : Kind) (expectedSize : Nat)
    (payload : List Nat) : Except String (List Nat × List Nat) :=
  let canonical := canonicalBytes k expectedSize payload
  Except.ok (H canonical, canonical)

/-- Model of `Object::write_to_objects`: write the object, then install the persisted
bytes in the store at the two-level path `(first 2 hex chars, remaining hex
chars)` of the digest.  The store is a map from path to file content.
Returns the raw digest and the updated store. -/
def writeToObjects (H : List Nat → List Nat)
    (store : List Nat × List Nat → Option (List Nat)) (k : Kind)
    (expectedSize : Nat) (payload : List Nat) :
    List Nat × (List Nat × List Nat → Option (List Nat)) :=
  let canonical := canonicalBytes k expectedSize payload
  let hash := H canonical
  let hashHex := hexEncode hash
  (hash,
   fun key =>
     if key = (hashHex.take 2, hashHex.drop 2) then some canonical
     else store key)

/-- The entry of `Object::read`: slicing `&hash[..2]` panics when the
identifier is shorter than two bytes; otherwise the file at the two-level
path is opened (`not found` when absent) and decoded. -/
def objectRead (store : List Nat × List Nat → Option (List Nat))
    (hash : List Nat) : ReadResult (Kind × Nat × List Nat) :=
  if hash.length < 2 then .crash "byte index out of bounds in hash slice"
  else
    match store (hash.take 2, hash.drop 2) with
    | none => .err "open in git objects"
    | some stream => decodeObject stream

/-- A filesystem entry as the tree-builder sees it: a regular file or
symlink with its name, permission classification and content, or a
directory with its name and children.  (`fs::read_dir` + `metadata` in
`write_tree_for`.) -/
inductive FSTree where
  | file (name : List Nat) (exec link : Bool) (content : List Nat)
  | dir (name : List Nat) (children : List FSTree)

/-- The sort key `write_tree_for` compares: raw name bytes and the
`is_dir` flag of the metadata of the entry. -/
def FSTree.entryKey : FSTree → List Nat × Bool
  | .file n _ _ _ => (n, false)
  | .dir n _ => (n, true)

/-- The mode string chosen in `write_tree_for` (lines 66–76), as bytes:
`"40000"` for directories, `"120000"` for symlinks, `"100755"` for files
with an executable bit, `"100644"` otherwise. -/
def modeBytes : FSTree → List Nat
  | .dir _ _ => [52, 48, 48, 48, 48]
  | .file _ _ true _ => [49, 50, 48, 48, 48, 48]
  | .file _ true false _ => [49, 48, 48, 55, 53, 53]
  | .file _ false false _ => [49, 48, 48, 54, 52, 52]

/-- The administrative directory name `".git"`, skipped by the builder. -/
def dotGitName : List Nat := [46, 103, 105, 116]

/-- Sorting of `(sort key, serialized entry)` pairs with the tree
comparator, modelling `entries.sort_unstable_by` (order of the serialized
record depends only on the key, so sorting keyed records is the same as
sorting the entries first). -/
def sortEntryRecs (l : List ((List Nat × Bool) × List Nat)) :
    List ((List Nat × Bool) × List Nat) :=
  List.insertionSort (fun p q => treeCmp p.1 q.1 ≠ Ordering.gt) l

mutual
/-- The serialized tree record one entry contributes to its parent
(`mode SPACE name NUL hash` in `write_tree_for` lines 100–104), or `[]`
when the entry contributes nothing: a `.git` entry, or a directory whose
recursive build returned `None` (the `continue` at lines 78–83).  A file
contributes the digest of its blob object; a non-empty directory the digest
of its tree object (`write_to_objects` at lines 107–120). -/
def entryLine (H : List Nat → List Nat) : FSTree → List Nat
  | .file name ex ln content =>
    if name = dotGitName then []
    else
      modeBytes (.file name ex ln content) ++ 32 :: name ++
        0 :: H (canonicalBytes Kind.blob content.length content)
  | .dir name children =>
    if name = dotGitName then []
    else
      let payload := flat ((sortEntryRecs (entryLines H children)).map Prod.snd)
      if payload = [] then []
      else
        modeBytes (.dir name children) ++ 32 :: name ++
          0 :: H (canonicalBytes Kind.tree payload.length payload)

/-- The keyed serialized records of the entries of a directory, in directory
read order (sorted afterwards by `sortEntryRecs`). -/
def entryLines (H : List Nat → List Nat) : List FSTree → List ((List Nat × Bool) × List Nat)
  | [] => []
  | t :: ts => (t.entryKey, entryLine H t) :: entryLines H ts
end

/-- Model of `write_tree_for` over the children of a directory: concatenate the sorted
entry records; return `none` when the payload is empty (lines 107–108), and
otherwise the digest under which the tree object was stored (lines
110–120). -/
def writeTreeFor (H : List Nat → List Nat) (children : List FSTree) :
    Option (List Nat) :=
  let payload := flat ((sortEntryRecs (entryLines H children)).map Prod.snd)
  if payload = [] then none
  else some (H (canonicalBytes Kind.tree payload.length payload))

mutual
/-- An entry that recursively contains no file: a directory all of whose
entries are themselves such directories.  (A file or symlink is never
"empty".) -/
def isEmptyDir : FSTree → Bool
  | .file _ _ _ _ => false
  | .dir _ children => isEmptyDirL children

/-- All entries of the list recursively contain no file. -/
def isEmptyDirL : List FSTree → Bool
  | [] => true
  | t :: ts => isEmptyDir t && isEmptyDirL ts
end

/-- Sort key of the file entry named `"a"`. -/
def aFileKey : List Nat × Bool := ([97], false)

/-- Sort key of the file entry named `"a.c"`. -/
def aDotCKey : List Nat × Bool := ([97, 46, 99], false)

/-- Sort key of the directory entry named `"a"`. -/
def aDirKey : List Nat × Bool := ([97], true)

/-- The sort of the tree builder specialized to bare sort keys (insertion sort by
`treeCmp`, the model of `sort_unstable_by`). -/
def sortKeys (l : List (List Nat × Bool)) : List (List Nat × Bool) :=
  List.insertionSort (fun a b => treeCmp a b ≠ Ordering.gt) l

/-! ## Helper lemmas: decimal formatting and parsing -/

theorem natToDigitBytesAux_eq (n : Nat) : ∀ fuel acc, n < fuel →
    natToDigitBytesAux fuel n acc =
      (if n = 0 then [48]
       else ((Nat.digits 10 n).map (fun d => d + 48)).reverse) ++ acc := by
  induction n using Nat.strong_induction_on with
  | _ n ih =>
    intro fuel acc hf
    match fuel, hf with
    | fuel + 1, _ =>
      by_cases h10 : n < 10
      · simp only [natToDigitBytesAux, if_pos h10]
        by_cases h0 : n = 0
        · subst h0; simp
        · have hd : Nat.digits 10 n = [n] := by
            rw [Nat.digits_def' (by norm_num : (1:Nat) < 10) (Nat.pos_of_ne_zero h0)]
            rw [Nat.mod_eq_of_lt h10, Nat.div_eq_of_lt h10]
            simp
          rw [if_neg h0, hd, Nat.mod_eq_of_lt h10]
          simp
      · push_neg at h10
        have hn0 : n ≠ 0 := by omega
        have hlt : n / 10 < n := Nat.div_lt_self (by omega) (by norm_num)
        have hq0 : n / 10 ≠ 0 := by
          have := Nat.div_pos h10 (by norm_num : (0:Nat) < 10)
          omega
        simp only [natToDigitBytesAux, if_neg (by omega : ¬ n < 10)]
        rw [ih (n / 10) hlt fuel _ (by omega), if_neg hq0]
        rw [if_neg hn0,
          Nat.digits_def' (by norm_num : (1:Nat) < 10) (Nat.pos_of_ne_zero hn0)]
        simp

theorem natToDigitBytes_eq (n : Nat) :
    natToDigitBytes n =
      if n = 0 then [48]
      else ((Nat.digits 10 n).map (fun d => d + 48)).reverse := by
  rw [natToDigitBytes, natToDigitBytesAux_eq n (n + 1) [] (by omega)]
  simp

theorem mem_natToDigitBytes {b n : Nat} (h : b ∈ natToDigitBytes n) :
    48 ≤ b ∧ b ≤ 57 := by
  rw [natToDigitBytes_eq] at h
  by_cases h0 : n = 0
  · rw [if_pos h0] at h
    simp at h
    omega
  · rw [if_neg h0] at h
    simp only [List.mem_reverse, List.mem_map] at h
    obtain ⟨d, hd, rfl⟩ := h
    have := Nat.digits_lt_base (by norm_num : (1:Nat) < 10) hd
    omega

theorem natToDigitBytes_ne_nil (n : Nat) : natToDigitBytes n ≠ [] := by
  rw [natToDigitBytes_eq]
  by_cases h0 : n = 0
  · simp [h0]
  · rw [if_neg h0]
    simp [Nat.digits_ne_nil_iff_ne_zero, h0]

theorem digitsVal_reverse_map (ds : List Nat) (a : Nat) :
    ((ds.map (fun d => d + 48)).reverse).foldl (fun acc b => 10 * acc + (b - 48)) a
      = a * 10 ^ ds.length + Nat.ofDigits 10 ds := by
  induction ds generalizing a with
  | nil => simp
  | cons d ds ih =>
    simp only [List.map_cons, List.reverse_cons, List.foldl_append, List.foldl_cons,
      List.foldl_nil, ih, List.length_cons, Nat.ofDigits_cons, pow_succ]
    have : d + 48 - 48 = d := by omega
    rw [this]
    ring

theorem digitsVal_natToDigitBytes (n : Nat) :
    digitsVal (natToDigitBytes n) = n := by
  rw [natToDigitBytes_eq]
  by_cases h0 : n = 0
  · simp [h0, digitsVal]
  · rw [if_neg h0, digitsVal, digitsVal_reverse_map]
    have := Nat.ofDigits_digits 10 n
    simpa using this

theorem parseU64_natToDigitBytes {n : Nat} (h : n < u64Bound) :
    parseU64 (natToDigitBytes n) = some n := by
  obtain ⟨x, xs, hx⟩ : ∃ x xs, natToDigitBytes n = x :: xs := by
    cases hl : natToDigitBytes n with
    | nil => exact absurd hl (natToDigitBytes_ne_nil n)
    | cons x xs => exact ⟨x, xs, rfl⟩
  have hxmem : x ∈ natToDigitBytes n := by rw [hx]; exact List.mem_cons_self x xs
  have hxb := mem_natToDigitBytes hxmem
  rw [parseU64, hx]
  have hhead : (x :: xs).head? ≠ some 43 := by
    simp only [List.head?_cons, ne_eq, Option.some.injEq]
    omega
  rw [if_neg hhead]
  have hall : (x :: xs).all isDigitByte = true := by
    rw [← hx]
    refine List.all_eq_true.2 ?_
    intro b hb
    have := mem_natToDigitBytes hb
    simp only [isDigitByte, Bool.and_eq_true, decide_eq_true_eq]
    omega
  have hcond : (x :: xs) ≠ [] ∧ (x :: xs).all isDigitByte = true :=
    ⟨List.cons_ne_nil x xs, hall⟩
  rw [if_pos hcond, ← hx, digitsVal_natToDigitBytes, if_pos h]

/-! ## Helper lemmas: header scanning -/

theorem readUntilNul_append {pre : List Nat} (h : ∀ b ∈ pre, b ≠ 0)
    (rest : List Nat) : readUntilNul (pre ++ 0 :: rest) = (pre ++ [0], rest) := by
  induction pre with
  | nil => simp [readUntilNul]
  | cons x xs ih =>
    have hx : x ≠ 0 := h x (List.mem_cons_self x xs)
    simp only [List.cons_append, readUntilNul, if_neg hx, List.append_eq]
    rw [ih (fun b hb => h b (List.mem_cons_of_mem x hb))]

theorem readUntilNul_noNul {s : List Nat} (h : ∀ b ∈ s, b ≠ 0) :
    readUntilNul s = (s, []) := by
  induction s with
  | nil => rfl
  | cons x xs ih =>
    have hx : x ≠ 0 := h x (List.mem_cons_self x xs)
    simp only [readUntilNul, if_neg hx]
    rw [ih (fun b hb => h b (List.mem_cons_of_mem x hb))]

theorem cstr_pre_nul {pre : List Nat} (h : ∀ b ∈ pre, b ≠ 0) :
    cstrFromBytesWithNul (pre ++ [0]) = some pre := by
  rw [cstrFromBytesWithNul]
  have h1 : (pre ++ [0]).getLast? = some 0 := by simp
  have h2 : (pre ++ [0]).dropLast = pre := by simp
  rw [if_pos]
  · rw [h2]
  · refine ⟨h1, ?_⟩
    rw [h2]
    simpa using fun hmem => h 0 hmem rfl

theorem cstr_no_nul {s : List Nat} (h : ∀ b ∈ s, b ≠ 0) :
    cstrFromBytesWithNul s = none := by
  rw [cstrFromBytesWithNul, if_neg]
  rintro ⟨h1, -⟩
  have : 0 ∈ s := List.mem_of_mem_getLast? h1
  exact h 0 this rfl

theorem utf8ValidAux_ascii : ∀ (fuel : Nat) (l : List Nat), l.length ≤ fuel →
    (∀ b ∈ l, b ≤ 127) → utf8ValidAux fuel l = true := by
  intro fuel
  induction fuel with
  | zero =>
    intro l hl _
    match l, hl with
    | [], _ => rfl
  | succ f ih =>
    intro l hl h
    match l with
    | [] => rfl
    | x :: xs =>
      have hx : x ≤ 127 := h x (List.mem_cons_self x xs)
      rw [utf8ValidAux.eq_def]
      simp only [if_pos hx]
      exact ih xs (by simpa using Nat.le_of_succ_le_succ hl)
        (fun b hb => h b (List.mem_cons_of_mem x hb))

theorem utf8Valid_ascii {l : List Nat} (h : ∀ b ∈ l, b ≤ 127) :
    utf8Valid l = true :=
  utf8ValidAux_ascii l.length l le_rfl h

theorem splitOnceByte_append {sep : Nat} {pre : List Nat}
    (h : ∀ b ∈ pre, b ≠ sep) (rest : List Nat) :
    splitOnceByte sep (pre ++ sep :: rest) = some (pre, rest) := by
  induction pre with
  | nil => simp [splitOnceByte]
  | cons x xs ih =>
    have hx : x ≠ sep := h x (List.mem_cons_self x xs)
    simp only [List.cons_append, splitOnceByte, if_neg hx, List.append_eq]
    rw [ih (fun b hb => h b (List.mem_cons_of_mem x hb))]

theorem splitOnceByte_none {sep : Nat} {l : List Nat} (h : ∀ b ∈ l, b ≠ sep) :
    splitOnceByte sep l = none := by
  induction l with
  | nil => rfl
  | cons x xs ih =>
    have hx : x ≠ sep := h x (List.mem_cons_self x xs)
    simp only [splitOnceByte, if_neg hx]
    rw [ih (fun b hb => h b (List.mem_cons_of_mem x hb))]

/-! ## Helper lemmas: kind token facts -/

theorem kindBytes_bounds (k : Kind) : ∀ b ∈ kindBytes k, 97 ≤ b ∧ b ≤ 117 := by
  cases k <;> (intro b hb; simp [kindBytes] at hb) <;> omega

theorem parseKind_kindBytes (k : Kind) : parseKind (kindBytes k) = some k := by
  cases k <;> rfl

/-! ## Helper lemmas: decoding a canonical stream -/

theorem decode_canonical (k : Kind) {s : Nat} (p : List Nat) (hs : s < u64Bound) :
    decodeObject (canonicalBytes k s p) =
      if s < p.length then .err "too many bytes" else .ok (k, s, p) := by
  have hpre0 : ∀ b ∈ kindBytes k ++ 32 :: natToDigitBytes s, b ≠ 0 := by
    intro b hb
    rcases List.mem_append.1 hb with h | h
    · have := kindBytes_bounds k b h
      omega
    · rcases List.mem_cons.1 h with rfl | h
      · omega
      · have := mem_natToDigitBytes h
        omega
  have hcanon : canonicalBytes k s p =
      (kindBytes k ++ 32 :: natToDigitBytes s) ++ 0 :: p := by
    simp [canonicalBytes]
  have hascii : utf8Valid (kindBytes k ++ 32 :: natToDigitBytes s) = true := by
    apply utf8Valid_ascii
    intro b hb
    rcases List.mem_append.1 hb with h | h
    · have := kindBytes_bounds k b h
      omega
    · rcases List.mem_cons.1 h with rfl | h
      · omega
      · have := mem_natToDigitBytes h
        omega
  have hsplit : splitOnceByte 32 (kindBytes k ++ 32 :: natToDigitBytes s) =
      some (kindBytes k, natToDigitBytes s) := by
    apply splitOnceByte_append
    intro b hb
    have := kindBytes_bounds k b hb
    omega
  rw [decodeObject, hcanon, readUntilNul_append hpre0]
  simp only [cstr_pre_nul hpre0, hascii, if_true, hsplit, parseKind_kindBytes,
    parseU64_natToDigitBytes hs, limitDrain]
  by_cases hlen : s < p.length
  · rw [if_pos hlen, if_pos hlen]
  · rw [if_neg hlen, if_neg hlen]

/-! ## Helper lemmas: the bounded reader -/

theorem limitRead_ok {limit bufLen l2 : Nat} {src s2 bs : List Nat}
    (h : limitRead limit src bufLen = (Except.ok bs, l2, s2)) :
    bs.length ≤ limit ∧ l2 + bs.length = limit := by
  rw [limitRead] at h
  split_ifs at h
  all_goals
    simp only [Prod.mk.injEq, Except.ok.injEq, reduceCtorEq, false_and] at h
  all_goals
    obtain ⟨hbs, hl2, -⟩ := h
    have hlen := congrArg List.length hbs
    rw [List.length_take] at hlen
    omega

theorem limitRead_err {limit bufLen l2 : Nat} {src s2 : List Nat} {e : String}
    (h : limitRead limit src bufLen = (Except.error e, l2, s2)) : l2 = limit := by
  rw [limitRead] at h
  split_ifs at h
  all_goals
    simp only [Prod.mk.injEq, Except.error.injEq, reduceCtorEq, false_and] at h
  all_goals omega

theorem runReads_le (limit : Nat) (src ks : List Nat) :
    runReads limit src ks ≤ limit := by
  induction ks generalizing limit src with
  | nil => simp [runReads]
  | cons k ks ih =>
    rcases h : limitRead limit src k with ⟨res, l2, s2⟩
    cases res with
    | ok bs =>
      have hok := limitRead_ok h
      have := ih l2 s2
      simp only [runReads, h]
      omega
    | error e =>
      have herr := limitRead_err h
      have := ih l2 s2
      simp only [runReads, h]
      omega

/-- C6: across any sequence of read calls, a `LimitReader` with limit `L`
delivers at most `L` bytes in total to its caller, and a single read over a
source holding more than the remaining limit (with a buffer larger than the
limit) fails with the overrun error instead of delivering those bytes. -/
theorem limitReader_never_exceeds_limit :
    (∀ (limit : Nat) (src ks : List Nat), runReads limit src ks ≤ limit) ∧
    (∀ (limit : Nat) (src : List Nat) (bufLen : Nat),
      limit < src.length → limit < bufLen →
      (limitRead limit src bufLen).1 = Except.error "too many bytes") := by
  refine ⟨runReads_le, ?_⟩
  intro limit src bufLen hsrc hbuf
  rw [limitRead]
  have hcap : (if bufLen > limit then limit + 1 else bufLen) = limit + 1 :=
    if_pos hbuf
  rw [hcap]
  have hn : min (limit + 1) src.length = limit + 1 := by omega
  rw [hn, if_pos (by omega : limit + 1 > limit)]

/-- Witness for C6 at a concrete input: limit 2, a source of 3 bytes and a
5-byte buffer produce the overrun error. -/
theorem limitReader_never_exceeds_limit_witness :
    (limitRead 2 [1, 2, 3] 5).1 = Except.error "too many bytes" :=
  limitReader_never_exceeds_limit.2 2 [1, 2, 3] 5 (by decide) (by decide)

/-- C7 counterexample: with remaining limit `0` and an underlying source
that still offers a byte, a read with a 1-byte buffer returns the overrun
error — not a successful zero-byte read as the claim states. -/
theorem limit_zero_nonempty_source_errors :
    limitRead 0 [7] 1 = (Except.error "too many bytes", 0, []) := rfl

/-- C7 (amended): once the remaining limit is `0`, a read succeeds with zero
bytes exactly when the underlying source yields nothing (it is exhausted, or
the caller passed an empty buffer); when the source still offers a byte and
the buffer is non-empty, the read fails with the overrun error. -/
theorem limit_zero_read (src : List Nat) (bufLen : Nat) :
    (limitRead 0 src bufLen).1 =
      if src = [] ∨ bufLen = 0 then Except.ok []
      else Except.error "too many bytes" := by
  rw [limitRead]
  rcases src with - | ⟨b, rest⟩
  · simp
  · rcases Nat.eq_zero_or_pos bufLen with h0 | hpos
    · subst h0
      simp
    · have hcap : (if bufLen > 0 then 0 + 1 else bufLen) = 1 := if_pos hpos
      rw [hcap]
      have hn : min (0 + 1) (b :: rest).length = 1 := by
        simp only [List.length_cons]
        omega
      rw [hn]
      simp [if_neg (by omega : ¬ bufLen = 0)]

/-- C9: a read call that returns the overrun error leaves the remaining
limit unchanged; a successful read of `bs` returns at most the remaining
limit and decreases the limit by exactly the number of bytes returned. -/
theorem limit_decreases_only_on_success (limit : Nat) (src : List Nat)
    (bufLen : Nat) :
    (∀ e l2 s2, limitRead limit src bufLen = (Except.error e, l2, s2) →
      l2 = limit) ∧
    (∀ bs l2 s2, limitRead limit src bufLen = (Except.ok bs, l2, s2) →
      bs.length ≤ limit ∧ l2 + bs.length = limit) :=
  ⟨fun _ _ _ h => limitRead_err h, fun _ _ _ h => limitRead_ok h⟩

/-- Witness for C9 at concrete inputs: an erroring read (limit 0, one byte
offered) keeps the limit at 0; a successful read of one byte from limit 2
leaves limit 1. -/
theorem limit_decreases_only_on_success_witness :
    (0 : Nat) = 0 ∧ ([7] : List Nat).length ≤ 2 ∧ 1 + ([7] : List Nat).length = 2 :=
  ⟨(limit_decreases_only_on_success 0 [7] 1).1 "too many bytes" 0 [] rfl,
   (limit_decreases_only_on_success 2 [7] 1).2 [7] 1 [] rfl⟩

/-! ## Claim C4: header decode failures -/

/-- C4 counterexample: a stream with no NUL terminator at all (here the
single byte `b`) makes the decoder panic through
`expect("there is one nul at the end")` instead of returning a
corrupt-header error to the caller. -/
theorem missing_nul_crashes :
    decodeObject [98] = .crash "there is one nul at the end" := rfl

/-- C4 (amended): when the stream contains no NUL at all the decoder
*panics* (there is also no header-length bound — the whole stream is
scanned); the error-result cases are: bytes before the NUL not valid UTF-8,
and a NUL-terminated valid-UTF-8 header with no space separator. -/
theorem decode_header_failure_modes :
    (∀ s : List Nat, (∀ b ∈ s, b ≠ 0) →
      decodeObject s = .crash "there is one nul at the end") ∧
    (∀ pre rest : List Nat, (∀ b ∈ pre, b ≠ 0) → utf8Valid pre = false →
      decodeObject (pre ++ 0 :: rest) =
        .err "git objects file header is not valid UTF-8") ∧
    (∀ pre rest : List Nat, (∀ b ∈ pre, b ≠ 0) → utf8Valid pre = true →
      (∀ b ∈ pre, b ≠ 32) →
      decodeObject (pre ++ 0 :: rest) =
        .err "git object file header did not start with a known type") := by
  refine ⟨?_, ?_, ?_⟩
  · intro s h
    rw [decodeObject, readUntilNul_noNul h]
    simp [cstr_no_nul h]
  · intro pre rest h hbad
    rw [decodeObject, readUntilNul_append h]
    simp [cstr_pre_nul h, hbad]
  · intro pre rest h hok hsp
    rw [decodeObject, readUntilNul_append h]
    simp [cstr_pre_nul h, hok, splitOnceByte_none hsp]

/-- Witness for C4 (amended) at concrete inputs: `[200]` has no NUL and
crashes; `[255, 0]` has a non-UTF-8 header byte; `[98, 0]` has a valid
UTF-8 header with no space. -/
theorem decode_header_failure_modes_witness :
    decodeObject [200] = .crash "there is one nul at the end" ∧
    decodeObject ([255] ++ 0 :: []) =
      .err "git objects file header is not valid UTF-8" ∧
    decodeObject ([98] ++ 0 :: []) =
      .err "git object file header did not start with a known type" :=
  ⟨decode_header_failure_modes.1 [200] (by decide),
   decode_header_failure_modes.2.1 [255] [] (by decide) (by decide),
   decode_header_failure_modes.2.2 [98] [] (by decide) (by decide) (by decide)⟩

/-! ## Claim C5: no size verification on the write path -/

/-- C5 counterexample: `Object::write` with declared size 5 and a 2-byte
payload succeeds, persisting a canonical stream whose header says `5` while
only 2 payload bytes follow — no size-mismatch error is surfaced. -/
theorem write_size_mismatch_succeeds :
    objectWrite (fun _ => []) Kind.blob 5 [1, 2] =
      Except.ok ([], [98, 108, 111, 98, 32, 53, 0, 1, 2]) := rfl

/-- C5 (amended): the write path performs no verification of the declared
size against the streamed payload — it always succeeds and persists the
header with the declared size; a mismatch with a longer payload surfaces
only later, on the read path, as the overrun error of the bounded reader. -/
theorem write_unverified_mismatch_surfaces_on_read (H : List Nat → List Nat)
    (k : Kind) (s : Nat) (p : List Nat) (hlt : s < p.length)
    (hs : s < u64Bound) :
    objectWrite H k s p =
      Except.ok (H (canonicalBytes k s p), canonicalBytes k s p) ∧
    decodeObject (canonicalBytes k s p) = .err "too many bytes" := by
  refine ⟨rfl, ?_⟩
  rw [decode_canonical k p hs, if_pos hlt]

/-- Witness for C5 (amended) at a concrete input: declared size 1,
payload `[7, 8]`. -/
theorem write_unverified_mismatch_surfaces_on_read_witness :
    decodeObject (canonicalBytes Kind.blob 1 [7, 8]) = .err "too many bytes" :=
  (write_unverified_mismatch_surfaces_on_read (fun _ => []) Kind.blob 1 [7, 8]
    (by decide) (by decide)).2

/-! ## Claim C10: short identifiers panic; not-found needs two bytes -/

theorem limitDrain_err_msg {limit : Nat} {src : List Nat} {e : String}
    (h : limitDrain limit src = Except.error e) : e = "too many bytes" := by
  rw [limitDrain] at h
  split_ifs at h
  all_goals simp only [Except.error.injEq, reduceCtorEq] at h
  exact h.symm

theorem decodeObject_err_ne_notfound {s : List Nat} {m : String}
    (h : decodeObject s = .err m) : m ≠ "open in git objects" := by
  simp only [decodeObject] at h
  repeat' split at h
  all_goals
    first
    | (rename_i heq
       simp only [ReadResult.err.injEq] at h
       subst h
       rw [limitDrain_err_msg heq]
       decide)
    | (simp only [ReadResult.err.injEq] at h
       subst h
       decide)
    | simp at h

/-- C10: reading an identifier shorter than two bytes panics on the
`&hash[..2]` slice instead of returning a not-found error; the not-found
error is produced exactly for identifiers of at least two bytes whose
object file is absent from the store. -/
theorem objectRead_short_hash_crashes (store : List Nat × List Nat → Option (List Nat)) :
    (∀ hash : List Nat, hash.length < 2 →
      objectRead store hash = .crash "byte index out of bounds in hash slice") ∧
    (∀ hash : List Nat, objectRead store hash = .err "open in git objects" →
      2 ≤ hash.length ∧ store (hash.take 2, hash.drop 2) = none) := by
  constructor
  · intro hash hlen
    rw [objectRead, if_pos hlen]
  · intro hash h
    rw [objectRead] at h
    split_ifs at h with hlen
    refine ⟨by omega, ?_⟩
    rcases hst : store (hash.take 2, hash.drop 2) with - | stream
    · rfl
    · rw [hst] at h
      exact absurd rfl (decodeObject_err_ne_notfound h)

/-- Witness for C10 at concrete inputs: the empty identifier crashes; the
two-byte identifier `"ab"` over an empty store reaches the not-found path. -/
theorem objectRead_short_hash_crashes_witness :
    objectRead (fun _ => none) [] = .crash "byte index out of bounds in hash slice" ∧
    (2 ≤ ([97, 98] : List Nat).length ∧
      (fun _ => (none : Option (List Nat))) (([97, 98] : List Nat).take 2,
        ([97, 98] : List Nat).drop 2) = none) :=
  ⟨(objectRead_short_hash_crashes (fun _ => none)).1 [] (by decide),
   (objectRead_short_hash_crashes (fun _ => none)).2 [97, 98] rfl⟩

/-! ## Claim C1: write/read round trip -/

theorem hexEncode_length (l : List Nat) : (hexEncode l).length = 2 * l.length := by
  induction l with
  | nil => rfl
  | cons x xs ih =>
    have hc : hexEncode (x :: xs) =
        hexDigitByte (x / 16) :: hexDigitByte (x % 16) :: hexEncode xs := rfl
    rw [hc]
    simp only [List.length_cons, ih]
    omega

/-- C1: writing an object `(K, len(P), P)` into the object store and reading
it back through the returned identifier yields exactly `(K, len(P), P)`.
The digest `H` is abstract; the hypotheses say it is 20 bytes long on this
input (as SHA-1 is) and that the payload length fits in `u64`. -/
theorem write_then_read_roundtrip (H : List Nat → List Nat)
    (store : List Nat × List Nat → Option (List Nat)) (k : Kind) (p : List Nat)
    (hH : (H (canonicalBytes k p.length p)).length = 20)
    (hs : p.length < u64Bound) :
    objectRead (writeToObjects H store k p.length p).2
      (hexEncode (writeToObjects H store k p.length p).1) =
      .ok (k, p.length, p) := by
  have hlen : (hexEncode (H (canonicalBytes k p.length p))).length = 40 := by
    rw [hexEncode_length, hH]
  have hw1 : (writeToObjects H store k p.length p).1 =
      H (canonicalBytes k p.length p) := rfl
  have hw2 : (writeToObjects H store k p.length p).2
      ((hexEncode (H (canonicalBytes k p.length p))).take 2,
        (hexEncode (H (canonicalBytes k p.length p))).drop 2) =
      some (canonicalBytes k p.length p) := by
    simp [writeToObjects]
  rw [hw1, objectRead,
    if_neg (by omega : ¬ (hexEncode (H (canonicalBytes k p.length p))).length < 2),
    hw2]
  show decodeObject (canonicalBytes k p.length p) = ReadResult.ok (k, p.length, p)
  rw [decode_canonical k p hs, if_neg (by omega : ¬ p.length < p.length)]

/-- Witness for C1 at a concrete input: a constant 20-byte digest, the empty
store, a blob with payload `[42]`. -/
theorem write_then_read_roundtrip_witness :
    objectRead (writeToObjects (fun _ => List.replicate 20 0) (fun _ => none)
        Kind.blob ([42] : List Nat).length [42]).2
      (hexEncode (writeToObjects (fun _ => List.replicate 20 0) (fun _ => none)
        Kind.blob ([42] : List Nat).length [42]).1) =
      .ok (Kind.blob, ([42] : List Nat).length, [42]) :=
  write_then_read_roundtrip (fun _ => List.replicate 20 0) (fun _ => none)
    Kind.blob [42] (by decide) (by decide)

/-! ## Claim C2: the tree comparator matches the spec description -/

theorem treeCmp_nil_nil (ad bd : Bool) : treeCmp ([], ad) ([], bd) = .eq := by
  cases ad <;> cases bd <;> decide

theorem treeCmp_nil_cons (ad bd : Bool) (y : Nat) (ys : List Nat) :
    treeCmp ([], ad) (y :: ys, bd) = if ad then compare 47 y else .lt := by
  rw [treeCmp]
  simp only [List.length_nil, List.length_cons, Nat.zero_min, List.take_zero,
    bytesCmp]
  rw [if_neg (by omega : ¬ (0 : Nat) = ys.length + 1)]
  simp only [List.getElem?_nil, List.getElem?_cons_zero]
  cases ad <;> simp [optCmpByte]

theorem treeCmp_cons_nil (ad bd : Bool) (x : Nat) (xs : List Nat) :
    treeCmp (x :: xs, ad) ([], bd) = if bd then compare x 47 else .gt := by
  rw [treeCmp]
  simp only [List.length_nil, List.length_cons, Nat.min_zero, List.take_zero,
    bytesCmp]
  rw [if_neg (by omega : ¬ xs.length + 1 = (0 : Nat))]
  simp only [List.getElem?_nil, List.getElem?_cons_zero]
  cases bd <;> simp [optCmpByte]

theorem treeCmp_cons_cons (x y : Nat) (xs ys : List Nat) (ad bd : Bool) :
    treeCmp (x :: xs, ad) (y :: ys, bd) =
      match compare x y with
      | .eq => treeCmp (xs, ad) (ys, bd)
      | o => o := by
  rw [treeCmp, treeCmp]
  simp only [List.length_cons, Nat.succ_min_succ, List.take_succ_cons,
    List.getElem?_cons_succ, bytesCmp]
  rcases hxy : compare x y with - | - | -
  · rfl
  · have hxyeq : x = y := Nat.compare_eq_eq.1 hxy
    subst hxyeq
    simp only [Nat.add_right_cancel_iff]
  · rfl

/-- C2: the tree-entry comparator of `write_tree_for` computes exactly the
ordering the spec describes: byte-wise over the shared prefix, equal for
equal names, and for a strict prefix the next byte of the longer name against a
synthetic `/` when the shorter entry is a directory, with the shorter
entry first otherwise. -/
theorem treeCmp_eq_specTreeCmp (a b : List Nat × Bool) :
    treeCmp a b = specTreeCmp a b := by
  obtain ⟨xs, ad⟩ := a
  obtain ⟨ys, bd⟩ := b
  rw [specTreeCmp]
  induction xs generalizing ys with
  | nil =>
    cases ys with
    | nil => rw [treeCmp_nil_nil, specGo]
    | cons y ys => rw [treeCmp_nil_cons, specGo]
  | cons x xs ih =>
    cases ys with
    | nil => rw [treeCmp_cons_nil, specGo]
    | cons y ys =>
      rw [treeCmp_cons_cons]
      show _ = specGo (x :: xs) ad (y :: ys) bd
      rw [specGo]
      rcases hxy : compare x y with - | - | - <;> simp only [hxy, ih ys]

/-! ## Claim C3: sorting the entries a (file), a.c (file), a (dir) -/

/-- C3 counterexample: the comparator puts directory `"a"` strictly after
file `"a.c"` (synthetic `/` = 47 against `.` = 46), so the claimed output
order `[a (file), a (dir), a.c]` is not sorted under the comparator and
cannot be the result of the sort. -/
theorem claimed_order_not_sorted :
    treeCmp aDirKey aDotCKey = Ordering.gt ∧
    ¬ List.Pairwise (fun a b => treeCmp a b ≠ Ordering.gt)
        [aFileKey, aDirKey, aDotCKey] := by
  constructor
  · decide
  · intro hp
    have := (List.pairwise_cons.1 (List.pairwise_cons.1 hp).2).1 aDotCKey
      (List.mem_cons_self _ _)
    exact this (by decide)

/-- C3 (amended): sorting the three entries with the canonical comparator
produces the order file `"a"`, file `"a.c"`, directory `"a"` — the
directory sorts last, after `"a.c"`, because its synthetic trailing `/`
(47) exceeds `.` (46); the comparator rates the two entries named `"a"`
equal. -/
theorem canonical_order_a_ac_adir :
    sortKeys [aFileKey, aDotCKey, aDirKey] = [aFileKey, aDotCKey, aDirKey] ∧
    List.Pairwise (fun a b => treeCmp a b ≠ Ordering.gt)
        [aFileKey, aDotCKey, aDirKey] ∧
    treeCmp aFileKey aDotCKey = Ordering.lt ∧
    treeCmp aDotCKey aDirKey = Ordering.lt ∧
    treeCmp aFileKey aDirKey = Ordering.eq := by
  refine ⟨by decide, ?_, by decide, by decide, by decide⟩
  refine List.Pairwise.cons ?_ (List.Pairwise.cons ?_ (List.pairwise_singleton _ _))
  · intro b hb
    rcases List.mem_cons.1 hb with rfl | hb
    · decide
    · rcases List.mem_singleton.1 hb with rfl
      decide
  · intro b hb
    rcases List.mem_singleton.1 hb with rfl
    decide

/-! ## Claim C8: empty directories yield no tree object and no entry -/

theorem isEmptyDirL_mem {l : List FSTree} (h : isEmptyDirL l = true) {t : FSTree}
    (ht : t ∈ l) : isEmptyDir t = true := by
  induction l with
  | nil => cases ht
  | cons x xs ih =>
    rw [isEmptyDirL, Bool.and_eq_true] at h
    rcases List.mem_cons.1 ht with rfl | ht
    · exact h.1
    · exact ih h.2 ht

theorem flat_eq_nil {L : List (List Nat)} (h : ∀ x ∈ L, x = []) :
    flat L = [] := by
  induction L with
  | nil => rfl
  | cons x xs ih =>
    rw [flat, h x (List.mem_cons_self x xs),
      ih (fun y hy => h y (List.mem_cons_of_mem x hy))]
    rfl

theorem mem_sortEntryRecs {p : (List Nat × Bool) × List Nat}
    {l : List ((List Nat × Bool) × List Nat)} (h : p ∈ sortEntryRecs l) :
    p ∈ l := by
  rw [sortEntryRecs] at h
  exact (List.perm_insertionSort _ l).mem_iff.1 h

theorem mem_entryLines {H : List Nat → List Nat}
    {p : (List Nat × Bool) × List Nat} {l : List FSTree}
    (h : p ∈ entryLines H l) : ∃ t ∈ l, p = (t.entryKey, entryLine H t) := by
  induction l with
  | nil => cases h
  | cons x xs ih =>
    rw [entryLines] at h
    rcases List.mem_cons.1 h with rfl | h
    · exact ⟨x, List.mem_cons_self x xs, rfl⟩
    · obtain ⟨t, ht, hp⟩ := ih h
      exact ⟨t, List.mem_cons_of_mem x ht, hp⟩

theorem sizeOf_mem_children {t : FSTree} {name : List Nat}
    {children : List FSTree} (h : t ∈ children) :
    sizeOf t < sizeOf (FSTree.dir name children) := by
  have h1 := List.sizeOf_lt_of_mem h
  have h2 : sizeOf (FSTree.dir name children) = 1 + sizeOf name + sizeOf children := by
    simp [FSTree.dir.sizeOf_spec]
  omega

theorem entryLine_of_emptyDir (H : List Nat → List Nat) :
    ∀ (n : Nat) (t : FSTree), sizeOf t ≤ n → isEmptyDir t = true →
      entryLine H t = [] := by
  intro n
  induction n using Nat.strong_induction_on with
  | _ n ih =>
    intro t hsz he
    match t with
    | .file name ex ln c => simp [isEmptyDir] at he
    | .dir name children =>
      rw [isEmptyDir] at he
      rw [entryLine]
      by_cases hname : name = dotGitName
      · rw [if_pos hname]
      · rw [if_neg hname]
        have hpayload :
            flat ((sortEntryRecs (entryLines H children)).map Prod.snd) = [] := by
          apply flat_eq_nil
          intro x hx
          obtain ⟨q, hq, rfl⟩ := List.mem_map.1 hx
          obtain ⟨t2, ht2, rfl⟩ := mem_entryLines (mem_sortEntryRecs hq)
          have hlt : sizeOf t2 < n :=
            Nat.lt_of_lt_of_le (sizeOf_mem_children ht2) hsz
          exact ih (sizeOf t2) hlt t2 le_rfl (isEmptyDirL_mem he ht2)
        rw [hpayload]
        simp

/-- C8: a directory that recursively contains no files — it is empty, or
holds only such directories — produces no tree object (`write_tree_for`
returns `None`) and contributes no entry record to its enclosing parent
tree. -/
theorem empty_dirs_produce_nothing (H : List Nat → List Nat)
    (l : List FSTree) (h : isEmptyDirL l = true) :
    writeTreeFor H l = none ∧
    ∀ name : List Nat, entryLine H (FSTree.dir name l) = [] := by
  have hpayload :
      flat ((sortEntryRecs (entryLines H l)).map Prod.snd) = [] := by
    apply flat_eq_nil
    intro x hx
    obtain ⟨q, hq, rfl⟩ := List.mem_map.1 hx
    obtain ⟨t2, ht2, rfl⟩ := mem_entryLines (mem_sortEntryRecs hq)
    exact entryLine_of_emptyDir H (sizeOf t2) t2 le_rfl (isEmptyDirL_mem h ht2)
  constructor
  · rw [writeTreeFor, hpayload]
    rfl
  · intro name
    have : isEmptyDir (FSTree.dir name l) = true := by
      rw [isEmptyDir]
      exact h
    exact entryLine_of_emptyDir H (sizeOf (FSTree.dir name l))
      (FSTree.dir name l) le_rfl this

/-- Witness for C8 at a concrete input: a directory holding one empty
subdirectory, with a constant digest function, yields no tree object and no
parent entry. -/
theorem empty_dirs_produce_nothing_witness :
    writeTreeFor (fun _ => []) [FSTree.dir [115] []] = none ∧
    entryLine (fun _ => []) (FSTree.dir [100] [FSTree.dir [115] []]) = [] :=
  ⟨(empty_dirs_produce_nothing (fun _ => []) [FSTree.dir [115] []] (by decide)).1,
   (empty_dirs_produce_nothing (fun _ => []) [FSTree.dir [115] []] (by decide)).2 [100]⟩

end MiniGit
